import Mathlib

set_option synthInstance.maxSize 512
set_option synthInstance.maxHeartbeats 400000

/-!
Verification of `bin/import_mls.py` (MLS corpus importer).

A Python string is modelled as a list of code points (`PyStr := List Nat`);
unlike Lean `Char`, a Python `str` may hold lone surrogates, which matters
for the `encode("utf-8", "ignore").decode("utf-8", "ignore")` round trip.
The character-level Unicode tables used by `unicodedata.normalize("NFKD", ·)`,
`str.lower()` and `str.strip()` are abstracted as a parameter structure
`UnicodeData`; theorems about them take as hypotheses the facts of the real
Unicode tables they rely on (e.g. that NFKD output is fully decomposed).
The filesystem is modelled as an association list from paths (component
lists) to file sizes, and the `sox` transcoder as an oracle giving the size
of the WAV it would produce.
-/

/-- A Python string: a list of Unicode code points (surrogates allowed). -/
abbrev PyStr : Type := List Nat




/-- Embed a Lean string literal as a `PyStr` (for concrete test inputs). -/
def pstr (s : String) : PyStr := s.data.map Char.toNat

/-- Abstracted per-character Unicode tables used by the script:
`decomp` is the fully recursively applied NFKD decomposition mapping of
`unicodedata.normalize("NFKD", ·)`, `ccc` the canonical combining class,
`lowerChar` the full lowercase mapping of `str.lower()`, and `isSpace`
the whitespace predicate of `str.strip()`. -/
structure UnicodeData where
  decomp : Nat → List Nat
  ccc : Nat → Nat
  lowerChar : Nat → List Nat
  isSpace : Nat → Bool

/-- Insert code point `x` into the leading nonzero-combining-class run of
`l`, after every code point of strictly smaller combining class (stability:
`x`, which came from the left, stays before equal classes and before any
starter). -/
def insertMark (ccc : Nat → Nat) (x : Nat) : List Nat → List Nat
  | [] => [x]
  | y :: ys => if 0 < ccc y ∧ ccc y < ccc x then y :: insertMark ccc x ys else x :: y :: ys

/-- The Unicode Canonical Ordering Algorithm: within each maximal run of
code points with nonzero combining class, stably sort by combining class;
starters (combining class 0) are barriers and keep their positions. -/
def canonicalOrder (ccc : Nat → Nat) : List Nat → List Nat
  | [] => []
  | x :: xs =>
    if ccc x = 0 then x :: canonicalOrder ccc xs else insertMark ccc x (canonicalOrder ccc xs)

/-- Canonically ordered: no adjacent pair has a larger combining class
followed by a smaller nonzero one. -/
def cccOrdered (ccc : Nat → Nat) : List Nat → Prop
  | [] => True
  | [_] => True
  | a :: b :: t => (0 < ccc b → ccc a ≤ ccc b) ∧ cccOrdered ccc (b :: t)

/-- A code point survives `encode("utf-8","ignore")`: it is a Unicode scalar
value, i.e. below 0x110000 and not a lone surrogate (0xD800–0xDFFF). -/
def utf8Representable (n : Nat) : Bool :=
  decide (n < 0x110000) && !(decide (0xD800 ≤ n) && decide (n < 0xE000))

/-- Model of `unicodedata.normalize("NFKD", s)` (src line 135): each code
point is replaced by its full compatibility decomposition, then the
Canonical Ordering Algorithm reorders combining marks. -/
def nfkd (U : UnicodeData) (s : PyStr) : PyStr :=
  canonicalOrder U.ccc (List.flatMap s U.decomp)

/-- Model of `.encode("utf-8", "ignore").decode("utf-8", "ignore")`
(src lines 136-137): code points with no UTF-8 encoding are silently
dropped; all others survive the round trip unchanged. -/
def utf8RoundTrip (s : PyStr) : PyStr :=
  List.filter utf8Representable s

/-- Model of `str.lower()` (src line 140): full lowercase mapping applied
pointwise (a single code point may lower to several, e.g. U+0130). -/
def pyLower (U : UnicodeData) (s : PyStr) : PyStr :=
  List.flatMap s U.lowerChar

/-- Model of `str.strip()` (src line 140): drop leading and trailing
whitespace code points. -/
def pyStrip (U : UnicodeData) (s : PyStr) : PyStr :=
  List.reverse (List.dropWhile U.isSpace (List.reverse (List.dropWhile U.isSpace s)))

/-- The transcript normalization of src lines 134-140: NFKD decomposition,
then the UTF-8 encode/decode round trip, then `.lower().strip()`. -/
def normalizeTranscript (U : UnicodeData) (s : PyStr) : PyStr :=
  pyStrip U (pyLower U (utf8RoundTrip (nfkd U s)))

/-- The normalization as the spec words it: the composition "canonical
Unicode decomposition, then re-encoding to UTF-8 dropping non-representable
bytes and decoding back, then lower-casing, then stripping leading and
trailing whitespace" (spec §4.3 step 2), each stage applied in turn. -/
def normalizeSpecSide (U : UnicodeData) (s : PyStr) : PyStr :=
  let decomposed := nfkd U s
  let reencoded := utf8RoundTrip decomposed
  let lowered := pyLower U reencoded
  pyStrip U lowered

/-- Index of the first occurrence of code point `c` in `s`, if any. -/
def pyFindAux (c : Nat) : List Nat → Option Nat
  | [] => none
  | x :: xs => if x = c then some 0 else Option.map (· + 1) (pyFindAux c xs)

/-- Model of Python `s.find(c)` for a single character: the index of the
first occurrence, or `-1` when absent (src line 128). -/
def pyFind (c : Nat) (s : PyStr) : Int :=
  match pyFindAux c s with
  | some i => (i : Int)
  | none => -1

/-- Model of the Python slice `s[:i]` for an `Int` index: a negative index
counts from the end, and out-of-range indices clamp. -/
def pySliceTo (s : PyStr) (i : Int) : PyStr :=
  List.take (if 0 ≤ i then i.toNat else ((s.length : Int) + i).toNat) s

/-- Model of the Python slice `s[i:]` for an `Int` index. -/
def pySliceFrom (s : PyStr) (i : Int) : PyStr :=
  List.drop (if 0 ≤ i then i.toNat else ((s.length : Int) + i).toNat) s

/-- Src lines 128-129: `first_space = line.find("\t")` followed by
`seqid, transcript = line[:first_space], line[first_space + 1:]`.
Note that when no tab is present `find` returns `-1`, so the slices are
`line[:-1]` and `line[0:]` — not an error. Tab is code point 9. -/
def parseLine (line : PyStr) : PyStr × PyStr :=
  let i := pyFind 9 line
  (pySliceTo line i, pySliceFrom line (i + 1))

/-- Model of Python `s.split(sep)` for a one-character separator `c`:
split at every occurrence, keeping empty pieces; `"".split(c) = [""]`
(src line 143 with `c` the underscore, code point 95). -/
def pySplit (c : Nat) : List Nat → List PyStr
  | [] => [[]]
  | x :: xs =>
    if x = c then
      [] :: pySplit c xs
    else
      match pySplit c xs with
      | h :: t => (x :: h) :: t
      | [] => [[x]]

/-- A filesystem path, as a list of components (the arguments that
`os.path.join` concatenates). -/
abbrev FsPath : Type := List PyStr



/-- The file store: an association list from paths to file sizes in bytes.
`os.path.exists` is presence, `os.path.getsize` is lookup. -/
abbrev FileStore : Type := List (FsPath × Nat)

/-- `os.path.getsize(p)`, as an optional lookup. -/
def fsSize (fs : FileStore) (p : FsPath) : Option Nat :=
  Option.map Prod.snd (List.find? (fun e => e.1 = p) fs)

/-- `os.path.exists(p)` for the file store. -/
def fsExists (fs : FileStore) (p : FsPath) : Bool :=
  Option.isSome (fsSize fs p)

/-- Writing a file of size `n` at path `p`. -/
def fsWrite (fs : FileStore) (p : FsPath) (n : Nat) : FileStore :=
  (p, n) :: fs

/-- Src line 17: the fixed target sample rate passed to the transcoder. -/
def SAMPLE_RATE : Nat := 16000

/-- The errors the per-line processing can raise: `split_seq[1]` on a list
that is too short (`IndexError`), and a failing `sox` build when the source
FLAC is missing. -/
inductive PyErr where
  | indexError : PyErr
  | soxError : PyErr
deriving DecidableEq

deriving instance DecidableEq for Except

/-- A Manifest Row (src line 152): absolute destination WAV path, WAV size
in bytes, normalized transcript. -/
abbrev ManifestRow : Type := FsPath × Nat × PyStr


/-- A transcode invocation: source path, destination path, output sample
rate (src lines 147-149: `Transformer`, `set_output_format(rate=16000)`,
`build(flac_file, wav_file)`). -/
abbrev TranscodeEvent : Type := FsPath × FsPath × Nat


/-- Src lines 143-144: `split_seq = seqid.split('_')` and
`flac_file = os.path.join(root, 'audio', split_seq[0], split_seq[1],
seqid + ".flac")`. Indexing `split_seq[1]` raises `IndexError` when the
split has fewer than two components. Underscore is code point 95. -/
def deriveAudioPath (root : FsPath) (seqid : PyStr) : Except PyErr FsPath :=
  match pySplit 95 seqid with
  | s0 :: s1 :: _ => Except.ok (root ++ [pstr "audio", s0, s1, seqid ++ pstr ".flac"])
  | _ => Except.error PyErr.indexError

/-- Src lines 126-152, one loop iteration: parse the line, normalize the
transcript, derive the FLAC and WAV paths, transcode if the WAV is absent
(fatal if the FLAC is missing), read the WAV size and emit a Manifest Row.
`absf` models `os.path.abspath`; `soxSize` is an oracle for the byte size
of the WAV that `sox` produces from a given source file. Returns the
updated file store, the row, and the transcode invocation if one happened. -/
def processLine (U : UnicodeData) (absf : FsPath → FsPath) (soxSize : FsPath → Nat)
    (root targetDir : FsPath) (fs : FileStore) (line : PyStr) :
    Except PyErr (FileStore × ManifestRow × Option TranscodeEvent) :=
  let seqid := (parseLine line).1
  let transcript := normalizeTranscript U (parseLine line).2
  match deriveAudioPath root seqid with
  | Except.error e => Except.error e
  | Except.ok flacFile =>
    let wavFile := targetDir ++ [seqid ++ pstr ".wav"]
    match fsSize fs wavFile with
    | some sz =>
      Except.ok (fs, (absf wavFile, sz, transcript), none)
    | none =>
      if fsExists fs flacFile then
        let sz := soxSize flacFile
        Except.ok (fsWrite fs wavFile sz, (absf wavFile, sz, transcript),
          some (flacFile, wavFile, SAMPLE_RATE))
      else
        Except.error PyErr.soxError

/-- The loop of src lines 126-152 over the lines of one transcript file,
threading the file store and appending one row per line in order. -/
def processLines (U : UnicodeData) (absf : FsPath → FsPath) (soxSize : FsPath → Nat)
    (root targetDir : FsPath) (fs : FileStore) :
    List PyStr → Except PyErr (FileStore × List ManifestRow)
  | [] => Except.ok (fs, [])
  | l :: ls =>
    match processLine U absf soxSize root targetDir fs l with
    | Except.error e => Except.error e
    | Except.ok (fs', row, _) =>
      match processLines U absf soxSize root targetDir fs' ls with
      | Except.error e => Except.error e
      | Except.ok (fs'', rows) => Except.ok (fs'', row :: rows)

/-- A rendered CSV record: one cell per column. -/
abbrev CsvRecord : Type := List PyStr

/-- The header written by `to_csv` for the DataFrame of src lines 154-156. -/
def csvHeader : CsvRecord := [pstr "wav_filename", pstr "wav_filesize", pstr "transcript"]

/-- Decimal rendering of a byte size for the CSV. -/
def renderNat (n : Nat) : PyStr := pstr (Nat.repr n)

/-- Rendering of a path for the CSV: components joined by "/". -/
def renderPath (p : FsPath) : PyStr := List.intercalate (pstr "/") p

/-- One CSV data record for a Manifest Row: the three columns, with no
index cell (`to_csv(..., index=False)`, src lines 82-90). -/
def renderRow (r : ManifestRow) : CsvRecord :=
  [renderPath r.1, renderNat r.2.1, r.2.2]

/-- The CSV produced from the accumulated rows (src lines 154-156 and
82-90): the header record followed by one record per row, in order. -/
def toCsv (rows : List ManifestRow) : List CsvRecord :=
  csvHeader :: List.map renderRow rows

/-- A directory-tree store for the extraction phase: the set of paths that
exist, as a list. `gfile.Exists` is membership. -/
abbrev DirStore : Type := List FsPath



/-- The non-empty initial segments of a path: extracting a tar entry also
creates every ancestor directory of the entry. -/
def pathInits : FsPath → List FsPath
  | [] => []
  | x :: xs => [x] :: List.map (fun p => x :: p) (pathInits xs)

/-- `tar.extractall(dataDir)` (src lines 96-98): every archive entry is
unpacked under `dataDir`, creating each entry and its ancestors. -/
def extractAll (fs : DirStore) (dataDir : FsPath) (entries : List FsPath) : DirStore :=
  fs ++ List.flatMap entries (fun e => List.map (fun p => dataDir ++ p) (pathInits e))

/-- `_maybe_extract` (src lines 93-98): if `dataDir/extractedData` does not
exist, extract the archive into `dataDir`; otherwise do nothing. -/
def maybeExtract (fs : DirStore) (dataDir : FsPath) (extractedData : PyStr)
    (entries : List FsPath) : DirStore :=
  if (dataDir ++ [extractedData]) ∈ fs then fs else extractAll fs dataDir entries

/-- A concrete instantiation of the abstract Unicode tables, for concrete
evaluations: identity NFKD decomposition, the real combining classes of
U+0301 (230) and U+0323 (220) with 0 elsewhere, ASCII lower-casing, ASCII
whitespace. -/
def asciiU : UnicodeData where
  decomp := fun c => [c]
  ccc := fun c => if c = 769 then 230 else if c = 803 then 220 else 0
  lowerChar := fun c => if 65 ≤ c ∧ c ≤ 90 then [c + 32] else [c]
  isSpace := fun c => c = 9 || c = 10 || c = 11 || c = 12 || c = 13 || c = 32

/-! Helper lemmas about the string primitives. -/

lemma pyFindAux_eq_none {c : Nat} {s : List Nat} (h : c ∉ s) : pyFindAux c s = none := by
  induction s with
  | nil => rfl
  | cons x xs ih =>
    simp only [List.mem_cons, not_or] at h
    have hxc : x ≠ c := fun hx => h.1 hx.symm
    simp [pyFindAux, hxc, ih h.2]

lemma pyFindAux_exists_of_mem {c : Nat} {s : List Nat} (h : c ∈ s) :
    ∃ i, pyFindAux c s = some i := by
  induction s with
  | nil => exact absurd h (List.not_mem_nil c)
  | cons x xs ih =>
    by_cases hx : x = c
    · exact ⟨0, by simp [pyFindAux, hx]⟩
    · have hm : c ∈ xs := by
        rcases List.mem_cons.mp h with h1 | h1
        · exact absurd h1.symm hx
        · exact h1
      obtain ⟨i, hi⟩ := ih hm
      exact ⟨i + 1, by simp [pyFindAux, hx, hi]⟩

lemma pyFindAux_spec {c : Nat} {s : List Nat} {i : Nat} (h : pyFindAux c s = some i) :
    List.take i s ++ c :: List.drop (i + 1) s = s := by
  induction s generalizing i with
  | nil => simp [pyFindAux] at h
  | cons x xs ih =>
    by_cases hx : x = c
    · simp only [pyFindAux, if_pos hx] at h
      cases h
      simp [hx]
    · simp only [pyFindAux, if_neg hx] at h
      cases hj : pyFindAux c xs with
      | none =>
        rw [hj] at h
        simp at h
      | some j =>
        rw [hj] at h
        obtain rfl : i = j + 1 := by
          simp at h
          omega
        simp only [List.take_succ_cons, List.drop_succ_cons]
        exact congrArg (x :: ·) (ih hj)

lemma pySplit_ne_nil (c : Nat) (s : List Nat) : pySplit c s ≠ [] := by
  induction s with
  | nil => simp [pySplit]
  | cons x xs ih =>
    by_cases hx : x = c
    · simp [pySplit, hx]
    · simp only [pySplit, if_neg hx]
      cases hs : pySplit c xs with
      | nil => exact List.cons_ne_nil _ _
      | cons h' t => exact List.cons_ne_nil _ _

lemma pySplit_of_not_mem {c : Nat} {s : List Nat} (h : c ∉ s) : pySplit c s = [s] := by
  induction s with
  | nil => rfl
  | cons x xs ih =>
    simp only [List.mem_cons, not_or] at h
    have hxc : x ≠ c := fun hx => h.1 hx.symm
    simp only [pySplit, if_neg hxc, ih h.2]

lemma pySplit_length_of_mem {c : Nat} {s : List Nat} (h : c ∈ s) :
    2 ≤ (pySplit c s).length := by
  induction s with
  | nil => exact absurd h (List.not_mem_nil c)
  | cons x xs ih =>
    by_cases hx : x = c
    · have h1 : 1 ≤ (pySplit c xs).length :=
        Nat.one_le_iff_ne_zero.mpr (fun h0 => pySplit_ne_nil c xs (List.length_eq_zero.mp h0))
      simp only [pySplit, if_pos hx, List.length_cons]
      omega
    · have hm : c ∈ xs := by
        rcases List.mem_cons.mp h with h1 | h1
        · exact absurd h1.symm hx
        · exact h1
      have h2 := ih hm
      simp only [pySplit, if_neg hx]
      cases hs : pySplit c xs with
      | nil => exact absurd hs (pySplit_ne_nil c xs)
      | cons h' t =>
        rw [hs] at h2
        simpa using h2

lemma flatMap_id_of_mem {l : List Nat} {f : Nat → List Nat} (h : ∀ x ∈ l, f x = [x]) :
    List.flatMap l f = l := by
  induction l with
  | nil => rfl
  | cons x xs ih =>
    simp only [List.flatMap_cons, h x (List.mem_cons_self x xs),
      ih (fun y hy => h y (List.mem_cons_of_mem x hy)), List.singleton_append]

lemma pyStrip_eq_rdropWhile (U : UnicodeData) (s : PyStr) :
    pyStrip U s = List.rdropWhile U.isSpace (List.dropWhile U.isSpace s) := rfl

lemma dropWhile_rdropWhile_dropWhile (p : Nat → Bool) (l : List Nat) :
    List.dropWhile p (List.rdropWhile p (List.dropWhile p l)) =
      List.rdropWhile p (List.dropWhile p l) := by
  obtain ⟨t, ht⟩ := List.rdropWhile_prefix p (List.dropWhile p l)
  cases hr : List.rdropWhile p (List.dropWhile p l) with
  | nil => rfl
  | cons x r =>
    rw [hr] at ht
    have h1 := List.dropWhile_idempotent p l
    rw [← ht, List.cons_append] at h1
    by_cases hpx : p x
    · exfalso
      rw [List.dropWhile_cons, if_pos hpx] at h1
      have hle : (List.dropWhile p (r ++ t)).length ≤ (r ++ t).length :=
        (List.dropWhile_suffix p).length_le
      have := congrArg List.length h1
      simp only [List.length_cons] at this
      omega
    · rw [List.dropWhile_cons, if_neg hpx]

lemma pyStrip_idem (U : UnicodeData) (s : PyStr) :
    pyStrip U (pyStrip U s) = pyStrip U s := by
  rw [pyStrip_eq_rdropWhile, pyStrip_eq_rdropWhile,
    dropWhile_rdropWhile_dropWhile, List.rdropWhile_idempotent]

lemma mem_of_mem_pyStrip {U : UnicodeData} {d : Nat} {s : PyStr} (h : d ∈ pyStrip U s) :
    d ∈ s := by
  rw [pyStrip_eq_rdropWhile] at h
  exact (List.dropWhile_suffix U.isSpace).subset
    ((List.rdropWhile_prefix U.isSpace (List.dropWhile U.isSpace s)).subset h)

lemma pySplit_short_iff {c : Nat} {s : List Nat} :
    (pySplit c s).length < 2 ↔ c ∉ s := by
  constructor
  · intro h hm
    exact absurd (pySplit_length_of_mem hm) (by omega)
  · intro h
    rw [pySplit_of_not_mem h]
    simp

lemma deriveAudioPath_error_of_short {root : FsPath} {seqid : PyStr}
    (h : (pySplit 95 seqid).length < 2) :
    deriveAudioPath root seqid = Except.error PyErr.indexError := by
  unfold deriveAudioPath
  cases hs : pySplit 95 seqid with
  | nil => rfl
  | cons s0 t =>
    cases t with
    | nil => rfl
    | cons s1 t' =>
      rw [hs] at h
      simp at h
      omega

lemma processLine_error_of_short {U : UnicodeData} {absf : FsPath → FsPath}
    {soxSize : FsPath → Nat} {root targetDir : FsPath} {fs : FileStore} {line : PyStr}
    (h : (pySplit 95 (parseLine line).1).length < 2) :
    processLine U absf soxSize root targetDir fs line = Except.error PyErr.indexError := by
  simp only [processLine, deriveAudioPath_error_of_short h]

lemma nil_not_mem_pathInits (e : FsPath) : ([] : FsPath) ∉ pathInits e := by
  induction e with
  | nil => simp [pathInits]
  | cons x xs ih => simp [pathInits]

lemma singleton_mem_pathInits_iff {m : PyStr} {e : FsPath} :
    [m] ∈ pathInits e ↔ e.head? = some m := by
  induction e with
  | nil => simp [pathInits]
  | cons x xs ih =>
    simp only [pathInits, List.mem_cons, List.mem_map, List.head?_cons]
    constructor
    · rintro (h | ⟨p, hp, hxp⟩)
      · have : m = x := by
          have := congrArg (fun l => List.head? l) h
          simpa using this
        rw [this]
      · exfalso
        have hpnil : p = [] ∧ x = m := by
          constructor
          · have := congrArg List.tail hxp
            simpa using this
          · have := congrArg (fun l => List.head? l) hxp
            simpa using this
        exact nil_not_mem_pathInits xs (hpnil.1 ▸ hp)
    · intro h
      left
      have : x = m := by
        injection h
      rw [this]

/-! Claim theorems. -/

/-- C1: for every raw transcript string, the Transcript Splitter's
normalization equals the composition of the decomposition step, the UTF-8
re-encode/decode step that drops non-representable code points, the
lower-casing step and the whitespace strip, in that order. -/
theorem normalizeTranscript_eq_composition (U : UnicodeData) (s : PyStr) :
    normalizeTranscript U s = normalizeSpecSide U s := rfl

/-- C4: for every transcript line containing at least one tab, splitting at
the first tab into (identifier, raw transcript) and re-joining the parts
with a single tab (code point 9) reproduces the original line exactly. -/
theorem parseLine_rejoin {line : PyStr} (h : 9 ∈ line) :
    (parseLine line).1 ++ 9 :: (parseLine line).2 = line := by
  obtain ⟨i, hi⟩ := pyFindAux_exists_of_mem h
  have hspec := pyFindAux_spec hi
  have h0 : (0 : Int) ≤ (i : Int) := Int.natCast_nonneg i
  have h1 : (0 : Int) ≤ (i : Int) + 1 := by omega
  have h2 : ((i : Int) + 1).toNat = i + 1 := by omega
  simp only [parseLine, pyFind, hi, pySliceTo, pySliceFrom, if_pos h0, if_pos h1,
    Int.toNat_natCast, h2]
  exact hspec

/-- Witness for C4 at the concrete line `"a_b\tc"`. -/
theorem parseLine_rejoin_witness :
    (parseLine (pstr "a_b\tc")).1 ++ 9 :: (parseLine (pstr "a_b\tc")).2 = pstr "a_b\tc" :=
  parseLine_rejoin (by decide)

/-- C5: for every identifier whose underscore split has at least two
components, the derived source audio path is rooted at the "audio"
subdirectory of the walk root, uses the first two components as nested
subdirectory names, and its filename is the full identifier plus the
".flac" extension. -/
theorem deriveAudioPath_components {root : FsPath} {seqid s0 s1 : PyStr}
    {rest : List PyStr} (h : pySplit 95 seqid = s0 :: s1 :: rest) :
    deriveAudioPath root seqid =
      Except.ok (root ++ [pstr "audio"] ++ [s0, s1] ++ [seqid ++ pstr ".flac"]) := by
  simp only [deriveAudioPath, h]
  congr 1
  simp

/-- Witness for C5 at the identifier `"A_B_C"`. -/
theorem deriveAudioPath_components_witness :
    deriveAudioPath [pstr "split"] (pstr "A_B_C") =
      Except.ok ([pstr "split"] ++ [pstr "audio"] ++ [pstr "A", pstr "B"] ++
        [pstr "A_B_C" ++ pstr ".flac"]) :=
  deriveAudioPath_components
    (by decide : pySplit 95 (pstr "A_B_C") = [pstr "A", pstr "B", pstr "C"])

/-- C8: the CSV is the header record (`wav_filename`, `wav_filesize`,
`transcript`) followed by exactly one data record per Manifest Row in
order; each data record has exactly the three columns (no index column);
and an empty row list yields only the header. -/
theorem toCsv_shape (rows : List ManifestRow) (r : ManifestRow) :
    toCsv rows = csvHeader :: List.map renderRow rows ∧
    (toCsv rows).length = rows.length + 1 ∧
    (renderRow r).length = 3 ∧
    toCsv ([] : List ManifestRow) = [csvHeader] := by
  refine ⟨rfl, by simp [toCsv], rfl, rfl⟩

/-- C10: for every transcript line whose parsed identifier splits into
fewer than two underscore components (equivalently, the identifier has no
underscore at all), deriving the source audio path raises `IndexError`, and
processing the line raises that error instead of producing a Manifest Row. -/
theorem processLine_short_split_fatal (U : UnicodeData) (absf : FsPath → FsPath)
    (soxSize : FsPath → Nat) (root targetDir : FsPath) (fs : FileStore) (line : PyStr)
    (h : (pySplit 95 (parseLine line).1).length < 2) :
    deriveAudioPath root (parseLine line).1 = Except.error PyErr.indexError ∧
    processLine U absf soxSize root targetDir fs line = Except.error PyErr.indexError ∧
    ((pySplit 95 (parseLine line).1).length < 2 ↔ 95 ∉ (parseLine line).1) :=
  ⟨deriveAudioPath_error_of_short h, processLine_error_of_short h, pySplit_short_iff⟩

/-- Witness for C10 at the line `"abc\thello"` (identifier `"abc"`, no
underscore) with an arbitrary concrete environment. -/
theorem processLine_short_split_fatal_witness :
    deriveAudioPath [pstr "r"] (parseLine (pstr "abc\thello")).1 =
        Except.error PyErr.indexError ∧
      processLine asciiU id (fun _ => 0) [pstr "r"] [pstr "t"] []
        (pstr "abc\thello") = Except.error PyErr.indexError ∧
      ((pySplit 95 (parseLine (pstr "abc\thello")).1).length < 2 ↔
        95 ∉ (parseLine (pstr "abc\thello")).1) :=
  processLine_short_split_fatal asciiU id (fun _ => 0) [pstr "r"] [pstr "t"] []
    (pstr "abc\thello") (by decide)

/-- C3 (counterexample): a transcript line with no tab is not always fatal.
For the line `"a_b\n"` (no tab), `find` returns -1, the identifier parses
as `"a_b"` (the line minus its final character), and with the destination
WAV already present the line is processed to a Manifest Row with no error. -/
theorem processLine_noTab_counterexample :
    (9 ∉ pstr "a_b\n") ∧
    processLine asciiU id (fun _ => 0) [pstr "r"] [pstr "t"]
        [([pstr "t", pstr "a_b" ++ pstr ".wav"], 5)] (pstr "a_b\n") =
      Except.ok ([([pstr "t", pstr "a_b" ++ pstr ".wav"], 5)],
        ([pstr "t", pstr "a_b" ++ pstr ".wav"], 5, pstr "a_b"), none) := by
  decide

/-- C3 (amended): for a transcript line with no tab, `find` returns -1 and
the slices parse the line as (line minus its final character, whole line);
no error is raised at the parse. Processing such a line is fatal
(`IndexError`) when the truncated identifier contains no underscore;
otherwise processing proceeds as for any other line and may emit a row. -/
theorem parseLine_noTab (line : PyStr) (h : 9 ∉ line) :
    parseLine line = (line.dropLast, line) ∧
    (∀ (U : UnicodeData) (absf : FsPath → FsPath) (soxSize : FsPath → Nat)
      (root targetDir : FsPath) (fs : FileStore), 95 ∉ line.dropLast →
      processLine U absf soxSize root targetDir fs line =
        Except.error PyErr.indexError) := by
  have hn := pyFindAux_eq_none h
  have hA : pySliceTo line (-1) = line.dropLast := by
    simp only [pySliceTo, if_neg (show ¬ (0 : Int) ≤ -1 by decide)]
    rw [show ((line.length : Int) + (-1)).toNat = line.length - 1 by omega]
    exact (List.dropLast_eq_take line).symm
  have hB : pySliceFrom line (-1 + 1) = line := by
    rw [show (-1 : Int) + 1 = 0 by decide]
    simp [pySliceFrom]
  have hparse : parseLine line = (line.dropLast, line) := by
    simp only [parseLine, pyFind, hn, hA, hB]
  refine ⟨hparse, ?_⟩
  intro U absf soxSize root targetDir fs hu
  apply processLine_error_of_short
  rw [hparse]
  exact pySplit_short_iff.mpr hu

/-- Witness for the amended C3 at the line `"abc\n"`. -/
theorem parseLine_noTab_witness :
    parseLine (pstr "abc\n") = ((pstr "abc\n").dropLast, pstr "abc\n") ∧
    (∀ (U : UnicodeData) (absf : FsPath → FsPath) (soxSize : FsPath → Nat)
      (root targetDir : FsPath) (fs : FileStore), 95 ∉ (pstr "abc\n").dropLast →
      processLine U absf soxSize root targetDir fs (pstr "abc\n") =
        Except.error PyErr.indexError) :=
  parseLine_noTab (pstr "abc\n") (by decide)

lemma fsSize_fsWrite (fs : FileStore) (p : FsPath) (n : Nat) :
    fsSize (fsWrite fs p n) p = some n := by
  simp [fsSize, fsWrite]

lemma processLine_ok_spec {U : UnicodeData} {absf : FsPath → FsPath}
    {soxSize : FsPath → Nat} {root targetDir : FsPath} {fs : FileStore} {line : PyStr}
    {fs' : FileStore} {row : ManifestRow} {ev : Option TranscodeEvent}
    (h : processLine U absf soxSize root targetDir fs line = Except.ok (fs', row, ev)) :
    ∃ flac, deriveAudioPath root (parseLine line).1 = Except.ok flac ∧
      ((∃ sz, fsSize fs (targetDir ++ [(parseLine line).1 ++ pstr ".wav"]) = some sz ∧
        fs' = fs ∧ ev = none ∧
        row = (absf (targetDir ++ [(parseLine line).1 ++ pstr ".wav"]), sz,
          normalizeTranscript U (parseLine line).2)) ∨
      (fsSize fs (targetDir ++ [(parseLine line).1 ++ pstr ".wav"]) = none ∧
        fsExists fs flac = true ∧
        fs' = fsWrite fs (targetDir ++ [(parseLine line).1 ++ pstr ".wav"])
          (soxSize flac) ∧
        ev = some (flac, targetDir ++ [(parseLine line).1 ++ pstr ".wav"],
          SAMPLE_RATE) ∧
        row = (absf (targetDir ++ [(parseLine line).1 ++ pstr ".wav"]),
          soxSize flac, normalizeTranscript U (parseLine line).2))) := by
  simp only [processLine] at h
  cases hda : deriveAudioPath root (parseLine line).1 with
  | error e =>
    rw [hda] at h
    exact absurd h (by simp)
  | ok flac =>
    rw [hda] at h
    refine ⟨flac, rfl, ?_⟩
    cases hsz : fsSize fs (targetDir ++ [(parseLine line).1 ++ pstr ".wav"]) with
    | some sz =>
      rw [hsz] at h
      simp only [Except.ok.injEq, Prod.mk.injEq] at h
      exact Or.inl ⟨sz, rfl, h.1.symm, h.2.2.symm, h.2.1.symm⟩
    | none =>
      rw [hsz] at h
      by_cases hfl : fsExists fs flac = true
      · simp only [if_pos hfl, Except.ok.injEq, Prod.mk.injEq] at h
        exact Or.inr ⟨rfl, hfl, h.1.symm, h.2.2.symm, h.2.1.symm⟩
      · simp only [if_neg hfl] at h
        exact absurd h (by simp)

/-- C6: when the per-line processing succeeds, a transcode was invoked
exactly when the destination WAV did not already exist; if it existed, the
file store is unchanged and no transcode happened; if it did not, the
transcode event targets the derived FLAC and WAV at rate 16000 Hz and
exactly that WAV is written. -/
theorem processLine_transcode_iff_missing (U : UnicodeData) (absf : FsPath → FsPath)
    (soxSize : FsPath → Nat) (root targetDir : FsPath) (fs : FileStore) (line : PyStr)
    (fs' : FileStore) (row : ManifestRow) (ev : Option TranscodeEvent)
    (h : processLine U absf soxSize root targetDir fs line = Except.ok (fs', row, ev)) :
    (ev.isSome = !fsExists fs (targetDir ++ [(parseLine line).1 ++ pstr ".wav"])) ∧
    (fsExists fs (targetDir ++ [(parseLine line).1 ++ pstr ".wav"]) = true →
      fs' = fs ∧ ev = none) ∧
    (fsExists fs (targetDir ++ [(parseLine line).1 ++ pstr ".wav"]) = false →
      ∃ flac, deriveAudioPath root (parseLine line).1 = Except.ok flac ∧
        ev = some (flac, targetDir ++ [(parseLine line).1 ++ pstr ".wav"],
          SAMPLE_RATE) ∧
        fs' = fsWrite fs (targetDir ++ [(parseLine line).1 ++ pstr ".wav"])
          (soxSize flac)) := by
  obtain ⟨flac, hda, hcase⟩ := processLine_ok_spec h
  rcases hcase with ⟨sz, hsz, hfs, hev, _⟩ | ⟨hsz, _, hfs, hev, _⟩
  · have hex : fsExists fs (targetDir ++ [(parseLine line).1 ++ pstr ".wav"]) = true := by
      simp [fsExists, hsz]
    refine ⟨?_, fun _ => ⟨hfs, hev⟩, fun hc => absurd hex (by simp [hc])⟩
    rw [hex, hev]
    rfl
  · have hex : fsExists fs (targetDir ++ [(parseLine line).1 ++ pstr ".wav"]) = false := by
      simp [fsExists, hsz]
    refine ⟨?_, fun hc => absurd hex (by simp [hc]), fun _ => ⟨flac, hda, hev, hfs⟩⟩
    rw [hex, hev]
    rfl

/-- Witness for C6: a concrete line whose destination WAV already exists is
processed with no transcode and an unchanged file store. -/
theorem processLine_transcode_iff_missing_witness :
    ((none : Option TranscodeEvent).isSome =
      !fsExists [([pstr "t", pstr "a_b" ++ pstr ".wav"], 5)]
        ([pstr "t"] ++ [(parseLine (pstr "a_b\thi")).1 ++ pstr ".wav"])) ∧
    (fsExists [([pstr "t", pstr "a_b" ++ pstr ".wav"], 5)]
        ([pstr "t"] ++ [(parseLine (pstr "a_b\thi")).1 ++ pstr ".wav"]) = true →
      [([pstr "t", pstr "a_b" ++ pstr ".wav"], 5)] =
          [([pstr "t", pstr "a_b" ++ pstr ".wav"], 5)] ∧
        (none : Option TranscodeEvent) = none) ∧
    (fsExists [([pstr "t", pstr "a_b" ++ pstr ".wav"], 5)]
        ([pstr "t"] ++ [(parseLine (pstr "a_b\thi")).1 ++ pstr ".wav"]) = false →
      ∃ flac, deriveAudioPath [pstr "r"] (parseLine (pstr "a_b\thi")).1 =
          Except.ok flac ∧
        (none : Option TranscodeEvent) =
          some (flac, [pstr "t"] ++ [(parseLine (pstr "a_b\thi")).1 ++ pstr ".wav"],
            SAMPLE_RATE) ∧
        [([pstr "t", pstr "a_b" ++ pstr ".wav"], 5)] =
          fsWrite [([pstr "t", pstr "a_b" ++ pstr ".wav"], 5)]
            ([pstr "t"] ++ [(parseLine (pstr "a_b\thi")).1 ++ pstr ".wav"])
            ((fun _ => 0) flac)) :=
  processLine_transcode_iff_missing asciiU id (fun _ => 0) [pstr "r"] [pstr "t"]
    [([pstr "t", pstr "a_b" ++ pstr ".wav"], 5)] (pstr "a_b\thi")
    [([pstr "t", pstr "a_b" ++ pstr ".wav"], 5)]
    ([pstr "t", pstr "a_b" ++ pstr ".wav"], 5, pstr "hi") none (by decide)

lemma processLines_length {U : UnicodeData} {absf : FsPath → FsPath}
    {soxSize : FsPath → Nat} {root targetDir : FsPath} :
    ∀ (lines : List PyStr) (fs fs' : FileStore) (rows : List ManifestRow),
      processLines U absf soxSize root targetDir fs lines = Except.ok (fs', rows) →
      rows.length = lines.length := by
  intro lines
  induction lines with
  | nil =>
    intro fs fs' rows h
    simp only [processLines, Except.ok.injEq, Prod.mk.injEq] at h
    rw [← h.2]
    rfl
  | cons l ls ih =>
    intro fs fs' rows h
    simp only [processLines] at h
    split at h
    next e heq => exact absurd h (by simp)
    next fs1 row ev heq =>
      split at h
      next e2 heq2 => exact absurd h (by simp)
      next fs2 rows2 heq2 =>
        simp only [Except.ok.injEq, Prod.mk.injEq] at h
        rw [← h.2]
        simp [ih fs1 fs2 rows2 heq2]

/-- C7: every Manifest Row recorded for a successfully processed line is
the triple (absolute destination WAV path, byte size of the destination WAV
in the resulting file store, normalized transcript), the destination WAV
exists in the resulting store when the row is emitted, and processing a
list of lines emits exactly one row per line in order with no
deduplication. -/
theorem manifestRow_spec :
    (∀ (U : UnicodeData) (absf : FsPath → FsPath) (soxSize : FsPath → Nat)
      (root targetDir : FsPath) (fs : FileStore) (line : PyStr) (fs' : FileStore)
      (row : ManifestRow) (ev : Option TranscodeEvent),
      processLine U absf soxSize root targetDir fs line = Except.ok (fs', row, ev) →
      row = (absf (targetDir ++ [(parseLine line).1 ++ pstr ".wav"]),
        (fsSize fs' (targetDir ++ [(parseLine line).1 ++ pstr ".wav"])).getD 0,
        normalizeTranscript U (parseLine line).2) ∧
      fsExists fs' (targetDir ++ [(parseLine line).1 ++ pstr ".wav"]) = true) ∧
    (∀ (U : UnicodeData) (absf : FsPath → FsPath) (soxSize : FsPath → Nat)
      (root targetDir : FsPath) (fs fs' : FileStore) (lines : List PyStr)
      (rows : List ManifestRow),
      processLines U absf soxSize root targetDir fs lines = Except.ok (fs', rows) →
      rows.length = lines.length) := by
  constructor
  · intro U absf soxSize root targetDir fs line fs' row ev h
    obtain ⟨flac, _, hcase⟩ := processLine_ok_spec h
    rcases hcase with ⟨sz, hsz, hfs, _, hrow⟩ | ⟨_, _, hfs, _, hrow⟩
    · subst hfs
      refine ⟨by rw [hrow, hsz]; rfl, ?_⟩
      simp [fsExists, hsz]
    · subst hfs
      have hw := fsSize_fsWrite fs (targetDir ++ [(parseLine line).1 ++ pstr ".wav"])
        (soxSize flac)
      refine ⟨by rw [hrow, hw]; rfl, ?_⟩
      simp [fsExists, hw]
  · intro U absf soxSize root targetDir fs fs' lines rows h
    exact processLines_length lines fs fs' rows h

/-- Witness for C7: the first conjunct applied to a concrete line whose
destination WAV already exists in the store with size 5. -/
theorem manifestRow_spec_witness :
    ([pstr "t", pstr "a_b" ++ pstr ".wav"], 5, pstr "hi") =
      ((id ([pstr "t"] ++ [(parseLine (pstr "a_b\thi")).1 ++ pstr ".wav"]) : FsPath),
        (fsSize [([pstr "t", pstr "a_b" ++ pstr ".wav"], 5)]
          ([pstr "t"] ++ [(parseLine (pstr "a_b\thi")).1 ++ pstr ".wav"])).getD 0,
        normalizeTranscript asciiU (parseLine (pstr "a_b\thi")).2) ∧
    fsExists [([pstr "t", pstr "a_b" ++ pstr ".wav"], 5)]
      ([pstr "t"] ++ [(parseLine (pstr "a_b\thi")).1 ++ pstr ".wav"]) = true :=
  manifestRow_spec.1 asciiU id (fun _ => 0) [pstr "r"] [pstr "t"]
    [([pstr "t", pstr "a_b" ++ pstr ".wav"], 5)] (pstr "a_b\thi")
    [([pstr "t", pstr "a_b" ++ pstr ".wav"], 5)]
    ([pstr "t", pstr "a_b" ++ pstr ".wav"], 5, pstr "hi") none (by decide)

/-- C9 (counterexample): the marker subdirectory does not necessarily exist
after `_maybe_extract` returns. With an empty filesystem, marker `"MLS"`
and an archive whose single entry lives under `"mls_english"`, extraction
runs but creates no `data/MLS` path. -/
theorem maybeExtract_marker_counterexample :
    ([pstr "data"] ++ [pstr "MLS"]) ∉
      maybeExtract ([] : DirStore) [pstr "data"] (pstr "MLS")
        [[pstr "mls_english", pstr "train"]] := by
  decide

/-- C9 (amended): `_maybe_extract` skips extraction entirely (filesystem
unchanged) when the marker subdirectory already exists, and otherwise
unpacks every entry of the archive (with its ancestor directories) into the
destination directory; the marker subdirectory exists after the call if and
only if it existed before or some archive entry's first path component is
the marker. -/
theorem maybeExtract_spec (fs : DirStore) (dataDir : FsPath) (marker : PyStr)
    (entries : List FsPath) :
    ((dataDir ++ [marker]) ∈ fs → maybeExtract fs dataDir marker entries = fs) ∧
    ((dataDir ++ [marker]) ∉ fs →
      maybeExtract fs dataDir marker entries = extractAll fs dataDir entries) ∧
    ((dataDir ++ [marker]) ∈ maybeExtract fs dataDir marker entries ↔
      (dataDir ++ [marker]) ∈ fs ∨ ∃ e ∈ entries, e.head? = some marker) := by
  refine ⟨fun hm => by simp [maybeExtract, hm], fun hm => by simp [maybeExtract, hm], ?_⟩
  by_cases hm : (dataDir ++ [marker]) ∈ fs
  · simp [maybeExtract, hm]
  · simp only [maybeExtract, if_neg hm, extractAll, List.mem_append, List.mem_flatMap,
      List.mem_map]
    constructor
    · rintro (h | ⟨e, he, p, hp, hdp⟩)
      · exact Or.inl h
      · refine Or.inr ⟨e, he, ?_⟩
        have hpm : p = [marker] := List.append_cancel_left hdp
        rw [← singleton_mem_pathInits_iff]
        exact hpm ▸ hp
    · rintro (h | ⟨e, he, hh⟩)
      · exact Or.inl h
      · exact Or.inr ⟨e, he, [marker], singleton_mem_pathInits_iff.mpr hh, rfl⟩

/-- Witness for the amended C9: the marker-existence equivalence at a
concrete filesystem and archive containing the marker as entry root. -/
theorem maybeExtract_spec_witness :
    (([pstr "data"] ++ [pstr "MLS"]) ∈
        maybeExtract ([] : DirStore) [pstr "data"] (pstr "MLS")
          [[pstr "MLS", pstr "x"]] ↔
      ([pstr "data"] ++ [pstr "MLS"]) ∈ ([] : DirStore) ∨
        ∃ e ∈ [[pstr "MLS", pstr "x"]], e.head? = some (pstr "MLS")) :=
  (maybeExtract_spec [] [pstr "data"] (pstr "MLS") [[pstr "MLS", pstr "x"]]).2.2

lemma cccOrdered_tail {ccc : Nat → Nat} {a : Nat} {l : List Nat}
    (h : cccOrdered ccc (a :: l)) : cccOrdered ccc l := by
  cases l with
  | nil => trivial
  | cons b t => exact h.2

lemma mem_insertMark {ccc : Nat → Nat} {x : Nat} :
    ∀ {l : List Nat} {y : Nat}, y ∈ insertMark ccc x l ↔ y = x ∨ y ∈ l := by
  intro l
  induction l with
  | nil =>
    intro y
    simp [insertMark]
  | cons z zs ih =>
    intro y
    by_cases h : 0 < ccc z ∧ ccc z < ccc x
    · simp only [insertMark, if_pos h, List.mem_cons, ih]
      tauto
    · simp only [insertMark, if_neg h, List.mem_cons]

lemma mem_canonicalOrder {ccc : Nat → Nat} :
    ∀ {l : List Nat} {y : Nat}, y ∈ canonicalOrder ccc l ↔ y ∈ l := by
  intro l
  induction l with
  | nil =>
    intro y
    simp [canonicalOrder]
  | cons x xs ih =>
    intro y
    by_cases h : ccc x = 0
    · simp [canonicalOrder, if_pos h, ih]
    · simp only [canonicalOrder, if_neg h, mem_insertMark, ih, List.mem_cons]

lemma insertMark_ordered {ccc : Nat → Nat} {x : Nat} :
    ∀ {l : List Nat}, cccOrdered ccc l → cccOrdered ccc (insertMark ccc x l) := by
  intro l
  induction l with
  | nil =>
    intro _
    simp [insertMark, cccOrdered]
  | cons y ys ih =>
    intro h
    by_cases hc : 0 < ccc y ∧ ccc y < ccc x
    · simp only [insertMark, if_pos hc]
      cases ys with
      | nil =>
        simp only [insertMark, cccOrdered]
        exact ⟨fun _ => Nat.le_of_lt hc.2, trivial⟩
      | cons z zs =>
        by_cases hz : 0 < ccc z ∧ ccc z < ccc x
        · have hins := ih h.2
          simp only [insertMark, if_pos hz] at hins ⊢
          exact ⟨h.1, hins⟩
        · simp only [insertMark, if_neg hz]
          exact ⟨fun _ => Nat.le_of_lt hc.2, fun h0 => by omega, h.2⟩
    · simp only [insertMark, if_neg hc]
      exact ⟨fun h0 => by omega, h⟩

lemma canonicalOrder_ordered (ccc : Nat → Nat) :
    ∀ l : List Nat, cccOrdered ccc (canonicalOrder ccc l) := by
  intro l
  induction l with
  | nil => simp [canonicalOrder, cccOrdered]
  | cons x xs ih =>
    by_cases h : ccc x = 0
    · simp only [canonicalOrder, if_pos h]
      cases hco : canonicalOrder ccc xs with
      | nil => simp [cccOrdered]
      | cons b t =>
        rw [hco] at ih
        exact ⟨fun _ => by omega, ih⟩
    · simp only [canonicalOrder, if_neg h]
      exact insertMark_ordered ih

lemma canonicalOrder_eq_self {ccc : Nat → Nat} :
    ∀ {l : List Nat}, cccOrdered ccc l → canonicalOrder ccc l = l := by
  intro l
  induction l with
  | nil => intro _; rfl
  | cons x xs ih =>
    intro h
    have htail := ih (cccOrdered_tail h)
    by_cases h0 : ccc x = 0
    · simp only [canonicalOrder, if_pos h0, htail]
    · simp only [canonicalOrder, if_neg h0, htail]
      cases xs with
      | nil => rfl
      | cons y ys =>
        have hcond : ¬(0 < ccc y ∧ ccc y < ccc x) := by
          intro hcon
          have := h.1 hcon.1
          omega
        simp only [insertMark, if_neg hcond]

lemma cccOrdered_append_right {ccc : Nat → Nat} :
    ∀ {l1 l2 : List Nat}, cccOrdered ccc (l1 ++ l2) → cccOrdered ccc l2 := by
  intro l1
  induction l1 with
  | nil => intro l2 h; exact h
  | cons a t ih => intro l2 h; exact ih (cccOrdered_tail h)

lemma cccOrdered_append_left {ccc : Nat → Nat} :
    ∀ {l1 l2 : List Nat}, cccOrdered ccc (l1 ++ l2) → cccOrdered ccc l1 := by
  intro l1
  induction l1 with
  | nil => intro l2 _; trivial
  | cons a t ih =>
    intro l2 h
    cases t with
    | nil => trivial
    | cons b t' => exact ⟨h.1, ih h.2⟩

lemma pyStrip_ordered {U : UnicodeData} {l : PyStr} (h : cccOrdered U.ccc l) :
    cccOrdered U.ccc (pyStrip U l) := by
  rw [pyStrip_eq_rdropWhile]
  obtain ⟨l1, hl1⟩ := List.dropWhile_suffix U.isSpace (l := l)
  rw [← hl1] at h
  have h2 : cccOrdered U.ccc (List.dropWhile U.isSpace l) := cccOrdered_append_right h
  obtain ⟨t, ht⟩ := List.rdropWhile_prefix U.isSpace (List.dropWhile U.isSpace l)
  rw [← ht] at h2
  exact cccOrdered_append_left h2

lemma pyLower_ordered {U : UnicodeData} :
    ∀ {l : PyStr},
      (∀ c ∈ l, ∃ d, U.lowerChar c = [d] ∧ (U.ccc d = U.ccc c ∨ U.ccc d = 0)) →
      cccOrdered U.ccc l → cccOrdered U.ccc (pyLower U l) := by
  intro l
  induction l with
  | nil =>
    intro _ _
    simp [pyLower, cccOrdered]
  | cons a t ih =>
    intro hc h
    obtain ⟨da, hda, hcda⟩ := hc a (List.mem_cons_self a t)
    have hlcons : pyLower U (a :: t) = da :: pyLower U t := by
      simp [pyLower, List.flatMap_cons, hda]
    rw [hlcons]
    have hct : ∀ c ∈ t, ∃ d, U.lowerChar c = [d] ∧ (U.ccc d = U.ccc c ∨ U.ccc d = 0) :=
      fun c hcm => hc c (List.mem_cons_of_mem a hcm)
    cases t with
    | nil => simp [pyLower, cccOrdered]
    | cons b t' =>
      obtain ⟨db, hdb, hcdb⟩ := hct b (List.mem_cons_self b t')
      have hlcons2 : pyLower U (b :: t') = db :: pyLower U t' := by
        simp [pyLower, List.flatMap_cons, hdb]
      have hrest : cccOrdered U.ccc (pyLower U (b :: t')) := ih hct h.2
      rw [hlcons2] at hrest
      rw [hlcons2]
      refine ⟨?_, hrest⟩
      intro h0
      rcases hcdb with hb | hb
      · have hab : U.ccc a ≤ U.ccc b := h.1 (by omega)
        rcases hcda with ha | ha <;> omega
      · omega

/-- C2 (counterexample): the normalization of src lines 134-140 is not
idempotent. On the string U+0301 (combining acute, combining class 230),
lone surrogate U+D800, U+0323 (combining dot below, combining class 220) —
all three NFKD-fixed in the real tables, as in `asciiU` — the first pass
drops the surrogate in the encode/decode step, leaving the two marks out of
canonical order, and the second pass's NFKD reorders them. -/
theorem normalizeTranscript_not_idem_counterexample :
    normalizeTranscript asciiU (normalizeTranscript asciiU [769, 55296, 803]) ≠
      normalizeTranscript asciiU [769, 55296, 803] := by
  decide

/-- C2 (amended): transcript normalization is idempotent on every string
all of whose code points are UTF-8 representable (no lone surrogates). The
hypotheses are facts of the real Unicode tables the script relies on: NFKD
output is fully decomposed (`hdec`) and decomposition preserves
representability (`hdecrep`); lower-casing a fully-decomposed code point
yields a fully-decomposed (`hlowdec`), representable (`hlowrep`), single
code point of equal or zero combining class (`hlowccc`); and lowercase
images are fixed by lower-casing (`hlowlow`). -/
theorem normalizeTranscript_idem_representable (U : UnicodeData)
    (hdec : ∀ a d, d ∈ U.decomp a → U.decomp d = [d])
    (hdecrep : ∀ a d, utf8Representable a = true → d ∈ U.decomp a →
      utf8Representable d = true)
    (hlowdec : ∀ c d, U.decomp c = [c] → d ∈ U.lowerChar c → U.decomp d = [d])
    (hlowlow : ∀ c d, d ∈ U.lowerChar c → U.lowerChar d = [d])
    (hlowrep : ∀ c d, utf8Representable c = true → d ∈ U.lowerChar c →
      utf8Representable d = true)
    (hlowccc : ∀ c, U.decomp c = [c] →
      ∃ d, U.lowerChar c = [d] ∧ (U.ccc d = U.ccc c ∨ U.ccc d = 0))
    (s : PyStr) (hs : ∀ c ∈ s, utf8Representable c = true) :
    normalizeTranscript U (normalizeTranscript U s) = normalizeTranscript U s := by
  have hnf : ∀ c ∈ nfkd U s, U.decomp c = [c] ∧ utf8Representable c = true := by
    intro c hc
    have hcf : c ∈ List.flatMap s U.decomp := mem_canonicalOrder.mp hc
    obtain ⟨a, ha, hca⟩ := List.mem_flatMap.mp hcf
    exact ⟨hdec a c hca, hdecrep a c (hs a ha) hca⟩
  have hrt : utf8RoundTrip (nfkd U s) = nfkd U s :=
    List.filter_eq_self.mpr (fun c hc => (hnf c hc).2)
  have hordn : cccOrdered U.ccc (nfkd U s) := canonicalOrder_ordered U.ccc _
  have hordl : cccOrdered U.ccc (pyLower U (nfkd U s)) :=
    pyLower_ordered (fun c hc => hlowccc c (hnf c hc).1) hordn
  have hnorm : normalizeTranscript U s = pyStrip U (pyLower U (nfkd U s)) := by
    rw [normalizeTranscript, hrt]
  have hordt : cccOrdered U.ccc (normalizeTranscript U s) := by
    rw [hnorm]
    exact pyStrip_ordered hordl
  have hmem : ∀ d ∈ normalizeTranscript U s,
      U.decomp d = [d] ∧ utf8Representable d = true ∧ U.lowerChar d = [d] := by
    intro d hd
    rw [hnorm] at hd
    have hd1 : d ∈ pyLower U (nfkd U s) := mem_of_mem_pyStrip hd
    obtain ⟨c, hc, hdc⟩ := List.mem_flatMap.mp hd1
    have hcfacts := hnf c hc
    exact ⟨hlowdec c d hcfacts.1 hdc, hlowrep c d hcfacts.2 hdc, hlowlow c d hdc⟩
  have h1 : nfkd U (normalizeTranscript U s) = normalizeTranscript U s := by
    show canonicalOrder U.ccc (List.flatMap (normalizeTranscript U s) U.decomp) = _
    rw [flatMap_id_of_mem (fun x hx => (hmem x hx).1)]
    exact canonicalOrder_eq_self hordt
  have h2 : utf8RoundTrip (normalizeTranscript U s) = normalizeTranscript U s :=
    List.filter_eq_self.mpr (fun x hx => (hmem x hx).2.1)
  have h3 : pyLower U (normalizeTranscript U s) = normalizeTranscript U s :=
    flatMap_id_of_mem (fun x hx => (hmem x hx).2.2)
  show pyStrip U (pyLower U (utf8RoundTrip (nfkd U (normalizeTranscript U s)))) = _
  rw [h1, h2, h3, hnorm]
  exact pyStrip_idem U (pyLower U (nfkd U s))

/-- Witness for the amended C2: idempotence at a concrete all-representable
string under the concrete instantiation of the Unicode tables, with each
table hypothesis discharged. -/
theorem normalizeTranscript_idem_representable_witness :
    normalizeTranscript asciiU (normalizeTranscript asciiU (pstr "  Hello World \t")) =
      normalizeTranscript asciiU (pstr "  Hello World \t") :=
  normalizeTranscript_idem_representable asciiU
    (by
      intro a d hd
      have hda : d = a := List.mem_singleton.mp hd
      subst hda
      rfl)
    (by
      intro a d ha hd
      have hda : d = a := List.mem_singleton.mp hd
      subst hda
      exact ha)
    (fun _ _ _ _ => rfl)
    (by
      intro c d hd
      simp only [asciiU] at hd
      by_cases h : 65 ≤ c ∧ c ≤ 90
      · rw [if_pos h] at hd
        have hdc : d = c + 32 := List.mem_singleton.mp hd
        subst hdc
        simp only [asciiU]
        rw [if_neg (by omega)]
      · rw [if_neg h] at hd
        have hdc : d = c := List.mem_singleton.mp hd
        subst hdc
        simp only [asciiU]
        rw [if_neg h])
    (by
      intro c d hc hd
      simp only [asciiU] at hd
      simp only [utf8Representable, Bool.and_eq_true, Bool.not_eq_true',
        Bool.and_eq_false_iff, decide_eq_true_eq, decide_eq_false_iff_not] at hc ⊢
      by_cases h : 65 ≤ c ∧ c ≤ 90
      · rw [if_pos h] at hd
        have hdc : d = c + 32 := List.mem_singleton.mp hd
        subst hdc
        omega
      · rw [if_neg h] at hd
        have hdc : d = c := List.mem_singleton.mp hd
        subst hdc
        exact hc)
    (by
      intro c _
      by_cases h : 65 ≤ c ∧ c ≤ 90
      · refine ⟨c + 32, ?_, Or.inr ?_⟩
        · simp only [asciiU]
          rw [if_pos h]
        · simp only [asciiU]
          rw [if_neg (by omega), if_neg (by omega)]
      · refine ⟨c, ?_, Or.inl rfl⟩
        simp only [asciiU]
        rw [if_neg h])
    (pstr "  Hello World \t")
    (by decide)
